import Mathlib

/-!
# Verification of the structured-logging facade `log`

A shallow embedding of `log.go`: the field registry (`RegisterField`,
`UnregisterField`), the skip rule set (`Skip`) and the dispatcher (`call` and the
six leveled entry points), followed by the theorems that settle the
specification's claims against this embedding.

Process-wide variables (`registeredFields`, `excludeRules`, `Factory`,
`CallerFrameToSkip`) are passed explicitly.  The backend entry returned by
`Factory()` is observed through the sequence of methods invoked on it.
-/

namespace Log

/-! ## Data model -/

/-- A metadata key, `type Field string`.  Go compares strings bytewise; on valid
UTF-8 this is the code-point order used here. -/
abbrev Field := String

/-- Modelled from the spec: the declaration of `Level` is not part of the sources
at hand.  A totally ordered severity enum, ascending
Debug < Info < Warn < Error < Fatal < Panic, carried by an integer type. -/
abbrev Level := Int

/-- Modelled from the spec: lowest severity. -/
def LevelDebug : Level := 0
/-- Modelled from the spec: second severity. -/
def LevelInfo : Level := 1
/-- Modelled from the spec: third severity. -/
def LevelWarn : Level := 2
/-- Modelled from the spec: fourth severity. -/
def LevelError : Level := 3
/-- Modelled from the spec: fifth severity. -/
def LevelFatal : Level := 4
/-- Modelled from the spec: highest severity. -/
def LevelPanic : Level := 5

/-- A non-nil `interface{}` value: a dynamic type together with a value of that
type.  Each constructor is one dynamic type: `string`, `int`, `int64`, `bool`,
`float64` (by its IEEE 754 bit pattern), and, for the types Go cannot compare
(slices, maps, functions), the name of the type with an identifier of the value.
The nil interface is `none` in `Option Value`. -/
inductive Value where
  | str (s : String)
  | int (n : Int)
  | int64 (n : Int)
  | bool (b : Bool)
  | float64 (bits : Nat)
  | uncomparable (type : String) (id : Nat)
  deriving DecidableEq, Repr

/-- An `interface{}`: `none` is the nil interface. -/
abbrev Iface := Option Value

/-- Whether a float64 bit pattern is a NaN: exponent bits all ones and a non-zero
fraction. -/
def isNaN (bits : Nat) : Bool :=
  (bits / 2 ^ 52) % 2 ^ 11 == 2047 && bits % 2 ^ 52 != 0

/-- The operator `==` on two float64, on their bit patterns: a NaN equals nothing,
itself included; the two zeros are equal; otherwise the patterns must agree. -/
def float64Eq (a b : Nat) : Bool :=
  if isNaN a || isNaN b then false
  else if a % 2 ^ 63 == 0 && b % 2 ^ 63 == 0 then true
  else a % 2 ^ 64 == b % 2 ^ 64

/-- The operator `==` on two non-nil interface values: `some false` when the
dynamic types differ, the comparison of the values when the types are identical
and comparable, and `none`, a run-time panic, when the types are identical and
not comparable. -/
def valueEq : Value → Value → Option Bool
  | .str a, .str b => some (decide (a = b))
  | .int a, .int b => some (decide (a = b))
  | .int64 a, .int64 b => some (decide (a = b))
  | .bool a, .bool b => some (decide (a = b))
  | .float64 a, .float64 b => some (float64Eq a b)
  | .uncomparable t _, .uncomparable u _ => if t = u then none else some false
  | _, _ => some false

/-- The operator `==` on two interface values: two nil interfaces are equal, a
nil and a non-nil one are not; `none` is a run-time panic. -/
def ifaceEq : Iface → Iface → Option Bool
  | none, none => some true
  | some v, some w => valueEq v w
  | _, _ => some false

/-- The value carrier, `context.Context`, as the chain built by
`context.WithValue` over an empty root.  Only keys of type `Field` are kept: a
key of any other type never compares equal to a `Field` key. -/
inductive Context where
  | background
  | withValue (parent : Context) (key : Field) (val : Iface)
  deriving Repr

/-- The lookup `ctx.Value(k)`: the innermost binding of `k`, nil when none. -/
def Context.Value : Context → Field → Iface
  | .background, _ => none
  | .withValue parent key val, k => if key = k then val else parent.Value k

/-- The skip rule set `map[Field]any` once allocated, read with the comma-ok
form: `none` when the key is absent, `some e` when it holds `e` (possibly nil). -/
abbrev RuleMap := Field → Option Iface

/-- The variable `excludeRules`: `none` is the nil map of a fresh process. -/
abbrev ExcludeRules := Option RuleMap

/-- The read `excludeRules[k]` in comma-ok form; a nil map has no key. -/
def ExcludeRules.get (rules : ExcludeRules) (k : Field) : Option Iface :=
  match rules with
  | none => none
  | some m => m k

/-- The assignment `m[field] = value`. -/
def RuleMap.set (m : RuleMap) (field : Field) (value : Iface) : RuleMap :=
  fun k => if k = field then some value else m k

/-- What `runtime.Caller(CallerFrameToSkip)` and `runtime.FuncForPC` resolved:
the file, the line, and the function name when `FuncForPC` is not nil. -/
structure Frame where
  file : String
  line : Int
  name : Option String
  deriving Repr

/-- One method invocation on the backend entry. -/
inductive Invocation where
  | GetLevel
  | WithField (key : String) (v : Value)
  | Debugf (format : String) (args : List Iface)
  | Infof (format : String) (args : List Iface)
  | Warnf (format : String) (args : List Iface)
  | Errorf (format : String) (args : List Iface)
  | Fatalf (format : String) (args : List Iface)
  | Panicf (format : String) (args : List Iface)
  deriving DecidableEq, Repr

/-- Whether the invocation is one of the six formatted-output methods. -/
def Invocation.isOutput : Invocation → Bool
  | .GetLevel => false
  | .WithField _ _ => false
  | _ => true

/-- Lexicographic comparison of two character sequences, the `<` of Go strings. -/
def lessChars : List Char → List Char → Bool
  | _, [] => false
  | [], _ :: _ => true
  | a :: as, b :: bs =>
    if a < b then true else if b < a then false else lessChars as bs

/-- The comparator handed to `sort.Slice`:
`registeredFields[i] < registeredFields[j]`. -/
def less (x y : Field) : Bool := lessChars x.data y.data

/-- The call `sort.Slice(registeredFields, less)`: the ascending arrangement of
the slice, in which no element is `less` than an earlier one.  Equal strings are
indistinguishable, so the result does not depend on the sorting algorithm. -/
def sortSlice (fields : List Field) : List Field :=
  fields.insertionSort (fun a b => less b a = false)

/-- The inner loop of `RegisterField`: whether `f` equals some element. -/
def exist (f : Field) : List Field → Bool
  | [] => false
  | existingF :: rest => if f = existingF then true else exist f rest

/-- The outer loop of `RegisterField`: each field not yet in the registry is
appended to it. -/
def registerLoop : List Field → List Field → List Field
  | [], registeredFields => registeredFields
  | f :: fields, registeredFields =>
    if exist f registeredFields then registerLoop fields registeredFields
    else registerLoop fields (registeredFields ++ [f])

/-- `RegisterField(fields...)` as a function of the registry. -/
def RegisterField (fields : List Field) (registeredFields : List Field) : List Field :=
  sortSlice (registerLoop fields registeredFields)

/-- The inner loop of `UnregisterField` for one `f`: the registry with the element
at the first index `i` holding `f` cut out,
`append(registeredFields[:i], registeredFields[i+1:]...)`; `none` when the scan
ends without a hit. -/
def removeAt (f : Field) : List Field → Option (List Field)
  | [] => none
  | existingF :: rest =>
    if f = existingF then some rest
    else (removeAt f rest).map (existingF :: ·)

/-- One run of the outer `for` of `UnregisterField` up to its first hit: `some`
of the shortened registry when some field was found (the point of `goto loop`),
`none` when the statement ran to completion. -/
def scanFields : List Field → List Field → Option (List Field)
  | [], _ => none
  | f :: fields, registeredFields =>
    match removeAt f registeredFields with
    | some shortened => some shortened
    | none => scanFields fields registeredFields

/-- The labelled loop of `UnregisterField`: after a hit, `goto loop` starts the
outer `for` again from the first field.  `fuel` bounds the number of runs of the
outer `for`; `none` when it is exhausted. -/
def unregisterLoop : Nat → List Field → List Field → Option (List Field)
  | 0, _, _ => none
  | fuel + 1, fields, registeredFields =>
    match scanFields fields registeredFields with
    | some shortened => unregisterLoop fuel fields shortened
    | none => some registeredFields

/-- `UnregisterField(fields...)` as a function of the registry, run with one more
round than the registry has elements. -/
def UnregisterField (fields : List Field) (registeredFields : List Field) :
    Option (List Field) :=
  (unregisterLoop (registeredFields.length + 1) fields registeredFields).map sortSlice

/-- The registries reachable from the empty registry of a fresh process by
`RegisterField` and `UnregisterField` calls with arbitrary arguments. -/
inductive Reachable : List Field → Prop where
  | empty : Reachable []
  | register (fields : List Field) {R : List Field} :
      Reachable R → Reachable (RegisterField fields R)
  | unregister (fields : List Field) {R R2 : List Field} :
      Reachable R → UnregisterField fields R = some R2 → Reachable R2

/-! ## Skip rule set -/

/-- `Skip(field, value)`: allocates the map when it is nil, then assigns. -/
def Skip (field : Field) (value : Iface) (excludeRules : ExcludeRules) : ExcludeRules :=
  match excludeRules with
  | none => some (RuleMap.set (fun _ => none) field value)
  | some m => some (RuleMap.set m field value)

/-! ## Dispatcher -/

/-- The built-in field `source_file`. -/
def FieldSourceFile : Field := "source_file"
/-- The built-in field `source_line`. -/
def FieldSourceLine : Field := "source_line"
/-- The built-in field `caller`. -/
def FieldCaller : Field := "caller"
/-- The built-in field `stack_trace`. -/
def FieldStackTrace : Field := "stack_trace"

/-- Lines 109-117 of `call`: the carrier extended with what the caller resolver
found; unchanged when `runtime.Caller` reports failure. -/
def withCaller (ctx : Context) : Option Frame → Context
  | none => ctx
  | some fr =>
    let ctx := Context.withValue ctx FieldSourceFile (some (Value.str fr.file))
    let ctx := Context.withValue ctx FieldSourceLine (some (Value.int fr.line))
    match fr.name with
    | some name => Context.withValue ctx FieldCaller (some (Value.str name))
    | none => ctx

/-- How the field loop of `call` ends: it ran over the whole registry, or a skip
rule matched and `call` returned, or a comparison panicked. -/
inductive LoopEnd where
  | completed
  | returned
  | panicked
  deriving DecidableEq, Repr

/-- The field loop of `call` (lines 119-129): the `WithField` invocations made, and
how the loop ended. -/
def fieldLoop (excludeRules : ExcludeRules) (ctx : Context) :
    List Field → List Invocation × LoopEnd
  | [] => ([], LoopEnd.completed)
  | k :: rest =>
    match ctx.Value k with
    | none => fieldLoop excludeRules ctx rest
    | some v =>
      match excludeRules.get k with
      | some exludeValue =>
        match ifaceEq (some v) exludeValue with
        | none => ([], LoopEnd.panicked)
        | some true => ([], LoopEnd.returned)
        | some false =>
          let r := fieldLoop excludeRules ctx rest
          (Invocation.WithField k v :: r.1, r.2)
      | none =>
        let r := fieldLoop excludeRules ctx rest
        (Invocation.WithField k v :: r.1, r.2)

/-- The `switch level` of `call` (lines 131-149). -/
def logf (level : Level) (format : String) (args : List Iface) : Invocation :=
  if level = LevelInfo then Invocation.Infof format args
  else if level = LevelWarn then Invocation.Warnf format args
  else if level = LevelError then Invocation.Errorf format args
  else if level = LevelFatal then Invocation.Fatalf format args
  else if level = LevelPanic then Invocation.Panicf format args
  else Invocation.Debugf format args

/-- What a dispatch reads besides its arguments: the threshold answered by the
entry of `Factory()`, the outcome of caller resolution, and the two process-wide
collections. -/
structure Env where
  threshold : Level
  caller : Option Frame
  registeredFields : List Field
  excludeRules : ExcludeRules

/-- The dispatcher `call(ctx, level, format, args...)`: the invocations made on
the backend entry, in order, up to the point where `call` returns or panics. -/
def call (env : Env) (ctx : Context) (level : Level) (format : String)
    (args : List Iface) : List Invocation :=
  Invocation.GetLevel ::
    if level < env.threshold then []
    else
      let ctx := withCaller ctx env.caller
      let r := fieldLoop env.excludeRules ctx env.registeredFields
      if r.2 = LoopEnd.completed then r.1 ++ [logf level format args] else r.1

/-- Whether `call` ends in the run-time panic of a comparison at line 123 instead
of returning. -/
def callPanics (env : Env) (ctx : Context) (level : Level) : Bool :=
  if level < env.threshold then false
  else
    decide ((fieldLoop env.excludeRules (withCaller ctx env.caller)
      env.registeredFields).2 = LoopEnd.panicked)

/-- `init()`: registers the four built-in fields. -/
def init (registeredFields : List Field) : List Field :=
  RegisterField [FieldSourceFile, FieldSourceLine, FieldCaller, FieldStackTrace]
    registeredFields

/-! ## Stack traces -/

/-- The removal as the design notes of the specification word it: a plain filter
over the sequence, dropping every element that matches a requested removal,
sorted afterwards.  It is compared with `UnregisterField`. -/
def removeAllMatching (fields : List Field) (registeredFields : List Field) : List Field :=
  sortSlice (registeredFields.filter (fun existingF => decide (existingF ∉ fields)))

/-! ## Fixtures of `log_test.go` -/

/-- The test field `component`. -/
def fieldComponent : Field := "component"
/-- The test field `asset`. -/
def fieldAsset : Field := "asset"

/-- The registry under which the examples run: the four built-in fields and the
two test fields, without `source_line`. -/
def exampleFields : List Field :=
  ["asset", "caller", "component", "source_file", "stack_trace"]

/-- The carrier of the examples: `component` and `asset` bound over the
background context. -/
def exampleCtx (asset : String) : Context :=
  Context.withValue
    (Context.withValue Context.background fieldComponent (some (Value.str "rockbears/log")))
    fieldAsset (some (Value.str asset))

/-- A resolved caller frame as in the examples' expected output. -/
def exampleFrame : Frame :=
  ⟨"log_test.go", 61, some "log_test.ExampleNewStdWrapper"⟩

/-- The environment of `ExampleNewStdWrapper`: threshold Info, no skip rule. -/
def exampleEnv : Env :=
  ⟨LevelInfo, some exampleFrame, exampleFields, none⟩

/-- The environment of `ExampleNewStdWrapper` after `Skip(field, value)`. -/
def exampleEnvSkip (field : Field) (value : Iface) : Env :=
  ⟨LevelInfo, some exampleFrame, exampleFields, Skip field value none⟩

/-! ## The order on fields -/

theorem lessChars_iff : ∀ (as bs : List Char), lessChars as bs = true ↔ as < bs
  | _, [] => by simp [lessChars]
  | [], b :: bs => by simp [lessChars, List.nil_lt_cons]
  | a :: as, b :: bs => by
    have ih := lessChars_iff as bs
    rw [lessChars]
    by_cases h1 : a < b
    · simp only [h1, if_true, true_iff]
      exact List.Lex.rel h1
    · by_cases h2 : b < a
      · simp only [h1, h2, if_true, if_false, Bool.false_eq_true, false_iff]
        intro h
        cases h with
        | cons h => exact lt_irrefl _ h2
        | rel h => exact h1 h
      · have hab : a = b := le_antisymm (not_lt.mp h2) (not_lt.mp h1)
        subst hab
        simp only [h1, if_false, ih]
        exact List.Lex.cons_iff.symm

theorem less_iff (x y : Field) : less x y = true ↔ x < y := by
  rw [less, lessChars_iff, String.lt_iff_toList_lt]; rfl

theorem less_eq_false_iff (x y : Field) : less y x = false ↔ x ≤ y := by
  rw [← not_lt, ← less_iff]; simp

theorem orderedInsert_less (a : Field) (m : List Field) :
    m.orderedInsert (fun a b => less b a = false) a = m.orderedInsert (· ≤ ·) a := by
  induction m with
  | nil => rfl
  | cons b m ihm => simp only [List.orderedInsert, less_eq_false_iff, ihm]

theorem sortSlice_eq (l : List Field) : sortSlice l = l.insertionSort (· ≤ ·) := by
  induction l with
  | nil => rfl
  | cons a l ih =>
    unfold sortSlice at *
    simp only [List.insertionSort, ih, orderedInsert_less]

theorem sorted_less_iff (l : List Field) :
    l.Sorted (fun a b => less b a = false) ↔ l.Sorted (· ≤ ·) := by
  simp only [List.Sorted, less_eq_false_iff]

theorem strict_less_iff (l : List Field) :
    l.Sorted (fun a b => less a b = true) ↔ l.Sorted (· < ·) := by
  simp only [List.Sorted, less_iff]

theorem mem_sortSlice {l : List Field} {x : Field} : x ∈ sortSlice l ↔ x ∈ l := by
  rw [sortSlice_eq]; exact List.mem_insertionSort _

theorem perm_sortSlice (l : List Field) : (sortSlice l).Perm l := by
  rw [sortSlice_eq]; exact List.perm_insertionSort _ l

theorem length_sortSlice (l : List Field) : (sortSlice l).length = l.length :=
  (perm_sortSlice l).length_eq

theorem nodup_sortSlice {l : List Field} : (sortSlice l).Nodup ↔ l.Nodup :=
  (perm_sortSlice l).nodup_iff

theorem sorted_sortSlice (l : List Field) :
    (sortSlice l).Sorted (fun a b => less b a = false) := by
  rw [sorted_less_iff, sortSlice_eq]; exact List.sorted_insertionSort _ l

theorem strict_sortSlice {l : List Field} (h : l.Nodup) :
    (sortSlice l).Sorted (fun a b => less a b = true) := by
  rw [strict_less_iff]
  exact ((sorted_less_iff _).mp (sorted_sortSlice l)).lt_of_le (nodup_sortSlice.mpr h)

theorem sortSlice_of_sorted {l : List Field}
    (h : l.Sorted (fun a b => less b a = false)) : sortSlice l = l := by
  rw [sortSlice_eq]; exact List.Sorted.insertionSort_eq ((sorted_less_iff l).mp h)

theorem sortSlice_idem (l : List Field) : sortSlice (sortSlice l) = sortSlice l :=
  sortSlice_of_sorted (sorted_sortSlice l)

theorem sortSlice_perm_eq {l₁ l₂ : List Field} (h : l₁.Perm l₂) :
    sortSlice l₁ = sortSlice l₂ := by
  apply List.eq_of_perm_of_sorted (r := (· ≤ ·))
  · exact (perm_sortSlice l₁).trans (h.trans (perm_sortSlice l₂).symm)
  · exact (sorted_less_iff _).mp (sorted_sortSlice l₁)
  · exact (sorted_less_iff _).mp (sorted_sortSlice l₂)

/-- The outcome of `sort.Slice` is determined by its contract alone: any
rearrangement of the slice in which no element is `less` than an earlier one is
`sortSlice` of it. -/
theorem sortSlice_unique {l sorted : List Field} (hp : sorted.Perm l)
    (hs : sorted.Sorted (fun a b => less b a = false)) : sorted = sortSlice l := by
  rw [← sortSlice_of_sorted hs]
  exact sortSlice_perm_eq hp

/-! ## Registration -/

theorem exist_iff (f : Field) (l : List Field) : exist f l = true ↔ f ∈ l := by
  induction l with
  | nil => simp [exist]
  | cons a l ih =>
    rw [exist]
    by_cases h : f = a
    · simp [h]
    · simp [h, ih]

theorem registerLoop_cons (f : Field) (fs R : List Field) :
    registerLoop (f :: fs) R = registerLoop fs (if f ∈ R then R else R ++ [f]) := by
  rw [registerLoop]
  by_cases h : f ∈ R
  · simp [h, (exist_iff f R).mpr h]
  · have : exist f R = false := by
      rw [← Bool.not_eq_true, exist_iff]; exact h
    simp [h, this]

theorem mem_registerLoop (fs R : List Field) (x : Field) :
    x ∈ registerLoop fs R ↔ x ∈ R ∨ x ∈ fs := by
  induction fs generalizing R with
  | nil => simp [registerLoop]
  | cons f fs ih =>
    rw [registerLoop_cons, ih]
    by_cases h : f ∈ R
    · simp only [h, if_true, List.mem_cons]
      constructor
      · rintro (h1 | h1)
        · exact Or.inl h1
        · exact Or.inr (Or.inr h1)
      · rintro (h1 | h1 | h1)
        · exact Or.inl h1
        · exact Or.inl (h1 ▸ h)
        · exact Or.inr h1
    · simp only [h, if_false, List.mem_append, List.mem_singleton, List.mem_cons]
      tauto

theorem nodup_registerLoop (fs R : List Field) (h : R.Nodup) :
    (registerLoop fs R).Nodup := by
  induction fs generalizing R with
  | nil => simpa [registerLoop] using h
  | cons f fs ih =>
    rw [registerLoop_cons]
    apply ih
    by_cases hf : f ∈ R
    · simpa [hf] using h
    · simp only [hf, if_false]
      exact List.Nodup.append h (List.nodup_singleton f) (by simpa using hf)

theorem registerLoop_perm (fs R : List Field) (h : R.Nodup) :
    (registerLoop fs R).Perm (R ++ fs.dedup.filter (fun f => decide (f ∉ R))) := by
  rw [List.perm_ext_iff_of_nodup (nodup_registerLoop fs R h)]
  · intro x
    simp only [mem_registerLoop, List.mem_append, List.mem_filter, List.mem_dedup,
      decide_eq_true_eq]
    tauto
  · refine List.Nodup.append h ((List.nodup_dedup fs).filter _) ?_
    intro x hx hx2
    simp only [List.mem_filter, decide_eq_true_eq] at hx2
    exact hx2.2 hx

/-! ## Unregistration -/

theorem removeAt_eq (f : Field) (l : List Field) :
    removeAt f l = if f ∈ l then some (l.erase f) else none := by
  induction l with
  | nil => simp [removeAt]
  | cons a l ih =>
    rw [removeAt]
    by_cases h : f = a
    · subst h; simp
    · have h2 : ¬ a = f := fun e => h e.symm
      have h3 : (a == f) = false := by simpa using h2
      by_cases hm : f ∈ l
      · simp [h, ih, hm, List.erase_cons, h3]
      · simp [h, ih, hm]

theorem scanFields_none (fs R : List Field) :
    scanFields fs R = none ↔ ∀ f ∈ fs, f ∉ R := by
  induction fs with
  | nil => simp [scanFields]
  | cons f fs ih =>
    rw [scanFields, removeAt_eq]
    by_cases h : f ∈ R
    · simp only [h, if_true, List.mem_cons, forall_eq_or_imp, not_true_eq_false, false_and]
      simp
    · simp [h, ih]

theorem scanFields_some (fs R R2 : List Field) (h : scanFields fs R = some R2) :
    ∃ f, f ∈ fs ∧ f ∈ R ∧ R2 = R.erase f := by
  induction fs with
  | nil => simp [scanFields] at h
  | cons f fs ih =>
    rw [scanFields, removeAt_eq] at h
    by_cases hf : f ∈ R
    · simp only [hf, if_true, Option.some.injEq] at h
      exact ⟨f, List.mem_cons_self f fs, hf, h.symm⟩
    · simp only [hf, if_false] at h
      obtain ⟨g, hg, hgR, he⟩ := ih h
      exact ⟨g, List.mem_cons_of_mem f hg, hgR, he⟩

theorem filter_erase_of_neg (p : Field → Bool) (f : Field) (l : List Field)
    (hp : p f = false) : (l.erase f).filter p = l.filter p := by
  induction l with
  | nil => rfl
  | cons a l ih =>
    by_cases h : a = f
    · subst h; simp [hp]
    · have h3 : (a == f) = false := by simpa using h
      rw [List.erase_cons, h3]
      simp only [Bool.false_eq_true, if_false, List.filter_cons, ih]

theorem filter_eq_self_of_scan {fs R : List Field} (h : ∀ f ∈ fs, f ∉ R) :
    R.filter (fun x => decide (x ∉ fs)) = R := by
  rw [List.filter_eq_self]
  intro a ha
  simp only [decide_eq_true_eq]
  exact fun hfs => h a hfs ha

/-- With more fuel than the registry has elements, the labelled loop ends, leaving
the elements that are not among the named fields. -/
theorem unregisterLoop_eq (fuel : Nat) (fs R : List Field) (h : R.length < fuel) :
    unregisterLoop fuel fs R = some (R.filter (fun x => decide (x ∉ fs))) := by
  induction fuel generalizing R with
  | zero => omega
  | succ n ih =>
    rw [unregisterLoop]
    cases hs : scanFields fs R with
    | none =>
      simp only
      rw [filter_eq_self_of_scan ((scanFields_none fs R).mp hs)]
    | some R2 =>
      simp only
      obtain ⟨f, hf, hfR, he⟩ := scanFields_some fs R R2 hs
      subst he
      have hlen : (R.erase f).length < n := by
        rw [List.length_erase_of_mem hfR]
        have : 0 < R.length := List.length_pos_of_mem hfR
        omega
      rw [ih _ hlen, filter_erase_of_neg _ f R (by simpa using hf)]

theorem UnregisterField_eq (fs R : List Field) :
    UnregisterField fs R = some (sortSlice (R.filter (fun x => decide (x ∉ fs)))) := by
  rw [UnregisterField, unregisterLoop_eq _ fs R (Nat.lt_succ_self _)]
  rfl

/-! ## Skip rules and the field loop -/

theorem Skip_get_self (F : Field) (V : Iface) (rules : ExcludeRules) :
    (Skip F V rules).get F = some V := by
  cases rules <;> simp [Skip, ExcludeRules.get, RuleMap.set]

theorem Skip_get_other (F : Field) (V : Iface) (rules : ExcludeRules) (k : Field)
    (h : k ≠ F) : (Skip F V rules).get k = rules.get k := by
  cases rules <;> simp [Skip, ExcludeRules.get, RuleMap.set, h]

/-- When every comparison along `l` evaluates to false, the field loop runs to
completion and attaches exactly the fields of `l` that the carrier holds. -/
theorem fieldLoop_noMatch (rules : ExcludeRules) (ctx : Context) (l : List Field)
    (h : ∀ k ∈ l, ctx.Value k ≠ none →
      ∀ e ∈ rules.get k, ifaceEq (ctx.Value k) e = some false) :
    fieldLoop rules ctx l =
      (l.filterMap (fun k => (ctx.Value k).map (Invocation.WithField k)),
        LoopEnd.completed) := by
  induction l with
  | nil => rfl
  | cons k rest ih =>
    have ih2 := ih (fun k2 hk2 => h k2 (List.mem_cons_of_mem _ hk2))
    have hk := h k (List.mem_cons_self _ _)
    rw [fieldLoop]
    cases hv : ctx.Value k with
    | none => simp [ih2, List.filterMap_cons, hv]
    | some v =>
      rw [hv] at hk
      cases hr : rules.get k with
      | none => simp [ih2, hv, List.filterMap_cons]
      | some e =>
        have hcmp : ifaceEq (some v) e = some false := hk (by simp) e hr
        simp [hcmp, ih2, hv, List.filterMap_cons]

/-- A comparison at the head that does not evaluate to false ends the loop at
once: by a return when it is true, by a panic when it is undefined. -/
theorem fieldLoop_stop (rules : ExcludeRules) (ctx : Context) (k : Field)
    (post : List Field) (e : Iface) (hv : ctx.Value k ≠ none)
    (hr : rules.get k = some e) (hs : ifaceEq (ctx.Value k) e ≠ some false) :
    fieldLoop rules ctx (k :: post) =
      ([], if ifaceEq (ctx.Value k) e = none then LoopEnd.panicked
           else LoopEnd.returned) := by
  rw [fieldLoop]
  cases hc : ctx.Value k with
  | none => exact absurd hc hv
  | some v =>
    rw [hc] at hs
    simp only [hr]
    cases hcmp : ifaceEq (some v) e with
    | none => simp
    | some b =>
      cases b with
      | false => exact absurd hcmp hs
      | true => simp

/-- The loop over `pre ++ rest` when every comparison along `pre` is false. -/
theorem fieldLoop_append (rules : ExcludeRules) (ctx : Context) (pre rest : List Field)
    (h : ∀ k ∈ pre, ctx.Value k ≠ none →
      ∀ e ∈ rules.get k, ifaceEq (ctx.Value k) e = some false) :
    fieldLoop rules ctx (pre ++ rest) =
      (pre.filterMap (fun k => (ctx.Value k).map (Invocation.WithField k)) ++
        (fieldLoop rules ctx rest).1, (fieldLoop rules ctx rest).2) := by
  induction pre with
  | nil => simp
  | cons k pre ih =>
    have ih2 := ih (fun k2 hk2 => h k2 (List.mem_cons_of_mem _ hk2))
    have hk := h k (List.mem_cons_self _ _)
    rw [List.cons_append, fieldLoop]
    cases hv : ctx.Value k with
    | none => simp [ih2, List.filterMap_cons, hv]
    | some v =>
      rw [hv] at hk
      cases hr : rules.get k with
      | none => simp [ih2, hv, List.filterMap_cons]
      | some e =>
        have hcmp : ifaceEq (some v) e = some false := hk (by simp) e hr
        simp [hcmp, ih2, hv, List.filterMap_cons]

/-- A list holding a field whose comparison is not false splits at the first such
field. -/
theorem first_stop (rules : ExcludeRules) (ctx : Context) (l : List Field)
    (h : ∃ k ∈ l, ctx.Value k ≠ none ∧
      ∃ e ∈ rules.get k, ifaceEq (ctx.Value k) e ≠ some false) :
    ∃ pre k post, l = pre ++ k :: post ∧
      (∀ k2 ∈ pre, ctx.Value k2 ≠ none →
        ∀ e ∈ rules.get k2, ifaceEq (ctx.Value k2) e = some false) ∧
      ctx.Value k ≠ none ∧
      ∃ e ∈ rules.get k, ifaceEq (ctx.Value k) e ≠ some false := by
  induction l with
  | nil => obtain ⟨k, hk, _⟩ := h; simp at hk
  | cons a l ih =>
    by_cases ha : ctx.Value a ≠ none ∧
        ∃ e ∈ rules.get a, ifaceEq (ctx.Value a) e ≠ some false
    · exact ⟨[], a, l, rfl, by simp, ha.1, ha.2⟩
    · obtain ⟨k, hk, hk1, hk2⟩ := h
      have hkl : k ∈ l := by
        rcases List.mem_cons.mp hk with e | e
        · subst e; exact absurd ⟨hk1, hk2⟩ ha
        · exact e
      obtain ⟨pre, k2, post, hl, hpre, h1, h2⟩ := ih ⟨k, hkl, hk1, hk2⟩
      refine ⟨a :: pre, k2, post, by rw [hl]; rfl, ?_, h1, h2⟩
      intro k3 hk3 hv3 e he
      rcases List.mem_cons.mp hk3 with e3 | e3
      · subst e3
        by_contra hne
        exact ha ⟨hv3, e, he, hne⟩
      · exact hpre k3 e3 hv3 e he

theorem filterMap_attach_isOutput (ctx : Context) (l : List Field) :
    (l.filterMap (fun k => (ctx.Value k).map (Invocation.WithField k))).filter
      Invocation.isOutput = [] := by
  rw [List.filter_eq_nil_iff]
  intro i hi
  simp only [List.mem_filterMap, Option.map_eq_some'] at hi
  obtain ⟨k, _, v, _, rfl⟩ := hi
  simp [Invocation.isOutput]

theorem logf_isOutput (level : Level) (format : String) (args : List Iface) :
    (logf level format args).isOutput = true := by
  unfold logf
  split_ifs <;> rfl

/-- The trace of a dispatch at or above the threshold in which every comparison
evaluates to false. -/
theorem call_pass (env : Env) (ctx : Context) (level : Level) (format : String)
    (args : List Iface) (hlevel : env.threshold ≤ level)
    (hno : ∀ k ∈ env.registeredFields, (withCaller ctx env.caller).Value k ≠ none →
      ∀ e ∈ env.excludeRules.get k,
        ifaceEq ((withCaller ctx env.caller).Value k) e = some false) :
    call env ctx level format args =
      Invocation.GetLevel ::
        (env.registeredFields.filterMap
          (fun k => ((withCaller ctx env.caller).Value k).map (Invocation.WithField k)) ++
        [logf level format args]) := by
  unfold call
  rw [if_neg (not_lt.mpr hlevel)]
  simp only [fieldLoop_noMatch _ _ _ hno, if_true]

/-- A dispatch in which every comparison evaluates to false does not panic. -/
theorem callPanics_pass (env : Env) (ctx : Context) (level : Level)
    (hno : ∀ k ∈ env.registeredFields, (withCaller ctx env.caller).Value k ≠ none →
      ∀ e ∈ env.excludeRules.get k,
        ifaceEq ((withCaller ctx env.caller).Value k) e = some false) :
    callPanics env ctx level = false := by
  unfold callPanics
  split_ifs
  · rfl
  · simp [fieldLoop_noMatch _ _ _ hno]

/-- The trace of a dispatch whose registry splits at a first field whose
comparison does not evaluate to false. -/
theorem call_stop (env : Env) (ctx : Context) (level : Level) (format : String)
    (args : List Iface) (pre post : List Field) (k : Field) (e : Iface)
    (hreg : env.registeredFields = pre ++ k :: post)
    (hpre : ∀ k2 ∈ pre, (withCaller ctx env.caller).Value k2 ≠ none →
      ∀ e2 ∈ env.excludeRules.get k2,
        ifaceEq ((withCaller ctx env.caller).Value k2) e2 = some false)
    (hv : (withCaller ctx env.caller).Value k ≠ none)
    (hr : env.excludeRules.get k = some e)
    (hs : ifaceEq ((withCaller ctx env.caller).Value k) e ≠ some false) :
    call env ctx level format args =
      Invocation.GetLevel ::
        (if level < env.threshold then []
         else pre.filterMap
          (fun k2 => ((withCaller ctx env.caller).Value k2).map (Invocation.WithField k2))) := by
  unfold call
  by_cases hl : level < env.threshold
  · simp [hl]
  · simp only [hl, if_false, hreg, fieldLoop_append _ _ _ _ hpre,
      fieldLoop_stop _ _ _ _ e hv hr hs, List.append_nil]
    split_ifs <;> first | rfl | contradiction

/-- A dispatch in which some registered field has a comparison that is not false
invokes no formatted-output method. -/
theorem call_no_output_of_stop (env : Env) (ctx : Context) (level : Level)
    (format : String) (args : List Iface)
    (h : ∃ k ∈ env.registeredFields, (withCaller ctx env.caller).Value k ≠ none ∧
      ∃ e ∈ env.excludeRules.get k,
        ifaceEq ((withCaller ctx env.caller).Value k) e ≠ some false) :
    ∀ i ∈ call env ctx level format args, i.isOutput = false := by
  obtain ⟨pre, k, post, hreg, hpre, hv, e, hr, hs⟩ := first_stop _ _ _ h
  rw [call_stop env ctx level format args pre post k e hreg hpre hv hr hs]
  intro i hi
  rcases List.mem_cons.mp hi with e1 | e1
  · subst e1; rfl
  · split_ifs at e1
    · simp at e1
    · have h0 := filterMap_attach_isOutput (withCaller ctx env.caller) pre
      rw [List.filter_eq_nil_iff] at h0
      simpa using h0 i e1

/-- Whether the dispatch panics, when its registry splits at a first field whose
comparison does not evaluate to false. -/
theorem callPanics_stop (env : Env) (ctx : Context) (level : Level)
    (pre post : List Field) (k : Field) (e : Iface)
    (hreg : env.registeredFields = pre ++ k :: post)
    (hpre : ∀ k2 ∈ pre, (withCaller ctx env.caller).Value k2 ≠ none →
      ∀ e2 ∈ env.excludeRules.get k2,
        ifaceEq ((withCaller ctx env.caller).Value k2) e2 = some false)
    (hv : (withCaller ctx env.caller).Value k ≠ none)
    (hr : env.excludeRules.get k = some e)
    (hs : ifaceEq ((withCaller ctx env.caller).Value k) e ≠ some false) :
    callPanics env ctx level = true ↔
      (env.threshold ≤ level ∧ ifaceEq ((withCaller ctx env.caller).Value k) e = none) := by
  unfold callPanics
  by_cases hl : level < env.threshold
  · simp [hl]
  · simp only [hl, if_false, hreg, fieldLoop_append _ _ _ _ hpre,
      fieldLoop_stop _ _ _ _ e hv hr hs, decide_eq_true_eq]
    constructor
    · intro h
      refine ⟨not_lt.mp hl, ?_⟩
      by_contra hne
      rw [if_neg hne] at h
      exact LoopEnd.noConfusion h
    · intro h
      rw [if_pos h.2]

/-- C1. Threshold gating: when the level is strictly below the threshold answered
by the backend entry, `call` invokes nothing on the entry besides the `GetLevel`
query, whatever the carrier, the registry and the skip rules are. -/
theorem call_below_threshold (env : Env) (ctx : Context) (level : Level)
    (format : String) (args : List Iface) (h : level < env.threshold) :
    call env ctx level format args = [Invocation.GetLevel] := by
  unfold call
  rw [if_pos h]

theorem call_below_threshold_witness :
    LevelDebug < exampleEnv.threshold ∧
      call exampleEnv (exampleCtx "ExampleNewStdWrapper") LevelDebug
        "this log should not be displayed" [] = [Invocation.GetLevel] :=
  ⟨by decide, call_below_threshold _ _ _ _ _ (by decide)⟩

/-- C3, as stated, fails: in the examples' setting with `Skip(component,
"rockbears/log")`, the registered field `component` resolves to its suppressed
value, yet `WithField` has been invoked for `asset` and `caller`, which sort
before it. -/
theorem total_suppression_counterexample :
    fieldComponent ∈ (exampleEnvSkip fieldComponent (some (Value.str "rockbears/log"))).registeredFields ∧
    (withCaller (exampleCtx "A") (some exampleFrame)).Value fieldComponent
      = some (Value.str "rockbears/log") ∧
    (exampleEnvSkip fieldComponent (some (Value.str "rockbears/log"))).excludeRules.get
      fieldComponent = some (some (Value.str "rockbears/log")) ∧
    call (exampleEnvSkip fieldComponent (some (Value.str "rockbears/log")))
        (exampleCtx "A") LevelInfo "this is info" [] =
      [Invocation.GetLevel,
       Invocation.WithField "asset" (Value.str "A"),
       Invocation.WithField "caller" (Value.str "log_test.ExampleNewStdWrapper")] := by
  refine ⟨by decide, by decide, by decide, by decide⟩

/-- C3, amended. Suppression drops the output, not the earlier attachments: when
some registered field resolves to a value that compares equal to its suppressed
value, the registry splits at the first field whose comparison is not false (the
first matching field, unless an earlier comparison panics); no formatted-output
method is invoked, `WithField` is invoked for neither that field nor any later
one, and at a level at or above the threshold `WithField` is invoked, in registry
order, exactly for the fields before it that the extended carrier holds.  The
dispatch panics exactly when the level is at or above the threshold and the
comparison at that field is undefined. -/
theorem suppression_keeps_earlier_fields (env : Env) (ctx : Context) (level : Level)
    (format : String) (args : List Iface)
    (h : ∃ k ∈ env.registeredFields, (withCaller ctx env.caller).Value k ≠ none ∧
      ∃ e ∈ env.excludeRules.get k,
        ifaceEq ((withCaller ctx env.caller).Value k) e = some true) :
    (∃ pre k post, env.registeredFields = pre ++ k :: post ∧
      (∀ k2 ∈ pre, (withCaller ctx env.caller).Value k2 ≠ none →
        ∀ e2 ∈ env.excludeRules.get k2,
          ifaceEq ((withCaller ctx env.caller).Value k2) e2 = some false) ∧
      (withCaller ctx env.caller).Value k ≠ none ∧
      (∃ e ∈ env.excludeRules.get k,
        ifaceEq ((withCaller ctx env.caller).Value k) e ≠ some false ∧
        (callPanics env ctx level = true ↔
          (env.threshold ≤ level ∧
            ifaceEq ((withCaller ctx env.caller).Value k) e = none))) ∧
      call env ctx level format args =
        Invocation.GetLevel ::
          (if level < env.threshold then []
           else pre.filterMap (fun k2 =>
            ((withCaller ctx env.caller).Value k2).map (Invocation.WithField k2)))) ∧
    ∀ i ∈ call env ctx level format args, i.isOutput = false := by
  have hstop : ∃ k ∈ env.registeredFields, (withCaller ctx env.caller).Value k ≠ none ∧
      ∃ e ∈ env.excludeRules.get k,
        ifaceEq ((withCaller ctx env.caller).Value k) e ≠ some false := by
    obtain ⟨k, hk, hv, e, he, hm⟩ := h
    exact ⟨k, hk, hv, e, he, by rw [hm]; simp⟩
  obtain ⟨pre, k, post, hreg, hpre, hv, e, hr, hs⟩ := first_stop _ _ _ hstop
  have hc := call_stop env ctx level format args pre post k e hreg hpre hv hr hs
  have hp := callPanics_stop env ctx level pre post k e hreg hpre hv hr hs
  exact ⟨⟨pre, k, post, hreg, hpre, hv, ⟨e, hr, hs, hp⟩, hc⟩,
    call_no_output_of_stop env ctx level format args hstop⟩

theorem suppression_keeps_earlier_fields_witness :
    (∃ pre k post,
      (exampleEnvSkip fieldComponent (some (Value.str "rockbears/log"))).registeredFields
        = pre ++ k :: post ∧
      (∀ k2 ∈ pre, (withCaller (exampleCtx "A") (some exampleFrame)).Value k2 ≠ none →
        ∀ e2 ∈ (exampleEnvSkip fieldComponent
            (some (Value.str "rockbears/log"))).excludeRules.get k2,
          ifaceEq ((withCaller (exampleCtx "A") (some exampleFrame)).Value k2) e2
            = some false) ∧
      (withCaller (exampleCtx "A") (some exampleFrame)).Value k ≠ none ∧
      (∃ e ∈ (exampleEnvSkip fieldComponent
            (some (Value.str "rockbears/log"))).excludeRules.get k,
        ifaceEq ((withCaller (exampleCtx "A") (some exampleFrame)).Value k) e
          ≠ some false ∧
        (callPanics (exampleEnvSkip fieldComponent (some (Value.str "rockbears/log")))
            (exampleCtx "A") LevelInfo = true ↔
          (LevelInfo ≤ LevelInfo ∧
            ifaceEq ((withCaller (exampleCtx "A") (some exampleFrame)).Value k) e
              = none))) ∧
      call (exampleEnvSkip fieldComponent (some (Value.str "rockbears/log")))
          (exampleCtx "A") LevelInfo "this is info" [] =
        Invocation.GetLevel ::
          (if LevelInfo < LevelInfo then []
           else pre.filterMap (fun k2 =>
            ((withCaller (exampleCtx "A") (some exampleFrame)).Value k2).map
              (Invocation.WithField k2)))) ∧
    ∀ i ∈ call (exampleEnvSkip fieldComponent (some (Value.str "rockbears/log")))
        (exampleCtx "A") LevelInfo "this is info" [], i.isOutput = false :=
  suppression_keeps_earlier_fields
    (exampleEnvSkip fieldComponent (some (Value.str "rockbears/log")))
    (exampleCtx "A") LevelInfo "this is info" []
    ⟨fieldComponent, by decide, by decide, some (Value.str "rockbears/log"), by decide,
      by decide⟩

/-- C4, as stated, fails: with `asset` registered, after `Skip(asset, V)` for a
slice `V`, a dispatch at Info whose carrier maps `asset` to another slice `W` of
the same type, with no other rule, panics at the comparison of line 123: nothing
but `GetLevel` is invoked on the entry. -/
theorem nonmatching_panic_counterexample :
    fieldAsset ∈ exampleFields ∧
    Value.uncomparable "[]string" 2 ≠ Value.uncomparable "[]string" 1 ∧
    LevelInfo ≤ LevelInfo ∧
    (withCaller
        (Context.withValue (exampleCtx "A") fieldAsset
          (some (Value.uncomparable "[]string" 2)))
        (some exampleFrame)).Value fieldAsset = some (Value.uncomparable "[]string" 2) ∧
    (∀ k ∈ exampleFields, k ≠ fieldAsset →
      (Skip fieldAsset (some (Value.uncomparable "[]string" 1)) none).get k = none) ∧
    call ⟨LevelInfo, some exampleFrame, exampleFields,
        Skip fieldAsset (some (Value.uncomparable "[]string" 1)) none⟩
        (Context.withValue (exampleCtx "A") fieldAsset
          (some (Value.uncomparable "[]string" 2)))
        LevelInfo "this is info" [] = [Invocation.GetLevel] ∧
    callPanics ⟨LevelInfo, some exampleFrame, exampleFields,
        Skip fieldAsset (some (Value.uncomparable "[]string" 1)) none⟩
        (Context.withValue (exampleCtx "A") fieldAsset
          (some (Value.uncomparable "[]string" 2)))
        LevelInfo = true := by
  refine ⟨by decide, by decide, by decide, by decide, by decide, by decide, by decide⟩

/-- C4, amended. A non-matching value passes: with `F` registered, `W` non-nil and
the comparison `W == V` evaluating to false (so `W` and `V` are not of one
uncomparable type), after `Skip(F, V)` a dispatch at a level at or above the
threshold whose extended carrier maps `F` to `W`, and in which the comparison of
every other field evaluates to false, does not panic, attaches the present
registered fields, among them the pair `(F, W)`, and then invokes the output
method of the level (`Debugf` at Debug, `Infof` at Info, `Warnf` at Warn,
`Errorf` at Error, `Fatalf` at Fatal, `Panicf` at Panic), which is the only
formatted-output invocation. -/
theorem nonmatching_value_passes (threshold : Level) (caller : Option Frame)
    (registeredFields : List Field) (rules : ExcludeRules) (ctx : Context)
    (level : Level) (format : String) (args : List Iface) (F : Field) (V : Iface)
    (W : Value) (hF : F ∈ registeredFields)
    (hWV : ifaceEq (some W) V = some false)
    (hlevel : threshold ≤ level)
    (hW : (withCaller ctx caller).Value F = some W)
    (hother : ∀ k ∈ registeredFields, k ≠ F → (withCaller ctx caller).Value k ≠ none →
      ∀ e ∈ (Skip F V rules).get k,
        ifaceEq ((withCaller ctx caller).Value k) e = some false) :
    call ⟨threshold, caller, registeredFields, Skip F V rules⟩ ctx level format args =
      Invocation.GetLevel ::
        (registeredFields.filterMap
          (fun k => ((withCaller ctx caller).Value k).map (Invocation.WithField k)) ++
        [logf level format args]) ∧
    Invocation.WithField F W ∈ registeredFields.filterMap
      (fun k => ((withCaller ctx caller).Value k).map (Invocation.WithField k)) ∧
    (call ⟨threshold, caller, registeredFields, Skip F V rules⟩ ctx level format
      args).filter Invocation.isOutput = [logf level format args] ∧
    ((level = LevelDebug → logf level format args = Invocation.Debugf format args) ∧
     (level = LevelInfo → logf level format args = Invocation.Infof format args) ∧
     (level = LevelWarn → logf level format args = Invocation.Warnf format args) ∧
     (level = LevelError → logf level format args = Invocation.Errorf format args) ∧
     (level = LevelFatal → logf level format args = Invocation.Fatalf format args) ∧
     (level = LevelPanic → logf level format args = Invocation.Panicf format args)) ∧
    callPanics ⟨threshold, caller, registeredFields, Skip F V rules⟩ ctx level = false := by
  have hno : ∀ k ∈ registeredFields, (withCaller ctx caller).Value k ≠ none →
      ∀ e ∈ (Skip F V rules).get k,
        ifaceEq ((withCaller ctx caller).Value k) e = some false := by
    intro k hk hv e he
    by_cases hkF : k = F
    · subst hkF
      have he2 : (Skip k V rules).get k = some e := he
      rw [Skip_get_self] at he2
      cases he2
      rw [hW]
      exact hWV
    · exact hother k hk hkF hv e he
  have hc := call_pass ⟨threshold, caller, registeredFields, Skip F V rules⟩ ctx level
    format args hlevel hno
  refine ⟨hc, ?_, ?_, ?_,
    callPanics_pass ⟨threshold, caller, registeredFields, Skip F V rules⟩ ctx level hno⟩
  · rw [List.mem_filterMap]
    exact ⟨F, hF, by rw [hW]; rfl⟩
  · rw [hc]
    have h1 : Invocation.isOutput Invocation.GetLevel = false := rfl
    simp only [List.filter_cons, h1, Bool.false_eq_true, if_false,
      List.filter_append, filterMap_attach_isOutput, List.nil_append, List.filter_nil,
      logf_isOutput, if_true]
  · refine ⟨?_, ?_, ?_, ?_, ?_, ?_⟩ <;>
    · intro hl
      subst hl
      rfl

theorem nonmatching_value_passes_witness :
    call ⟨LevelInfo, some exampleFrame, exampleFields,
        Skip fieldAsset (some (Value.str "A")) none⟩ (exampleCtx "B") LevelInfo
        "this is info" [] =
      [Invocation.GetLevel,
       Invocation.WithField "asset" (Value.str "B"),
       Invocation.WithField "caller" (Value.str "log_test.ExampleNewStdWrapper"),
       Invocation.WithField "component" (Value.str "rockbears/log"),
       Invocation.WithField "source_file" (Value.str "log_test.go"),
       Invocation.Infof "this is info" []] :=
  (nonmatching_value_passes LevelInfo (some exampleFrame) exampleFields none
    (exampleCtx "B") LevelInfo "this is info" [] fieldAsset (some (Value.str "A"))
    (Value.str "B") (by decide) (by decide) (by decide) (by decide)
    (by decide)).1.trans (by decide)

theorem registerLoop_single (f : Field) (R : List Field) :
    registerLoop [f] R = if f ∈ R then R else R ++ [f] := by
  rw [registerLoop_cons, registerLoop]

theorem mem_registerLoop_single (f : Field) (R : List Field) :
    f ∈ registerLoop [f] R := by
  rw [mem_registerLoop]; exact Or.inr (List.mem_singleton_self f)

theorem nodup_RegisterField (fs R : List Field) (h : R.Nodup) :
    (RegisterField fs R).Nodup :=
  nodup_sortSlice.mpr (nodup_registerLoop fs R h)

theorem nodup_UnregisterField (fs R R2 : List Field) (h : R.Nodup)
    (hu : UnregisterField fs R = some R2) : R2.Nodup := by
  rw [UnregisterField_eq] at hu
  cases hu
  exact nodup_sortSlice.mpr (h.filter _)

/-- C7. Registration is idempotent: on a duplicate-free registry, registering `f`
twice, by two calls or by one call naming it twice, gives the same registry as
registering it once; that registry holds exactly one occurrence of `f` and is
sorted in strictly ascending order. -/
theorem register_idempotent (R : List Field) (f : Field) (hR : R.Nodup) :
    RegisterField [f] (RegisterField [f] R) = RegisterField [f] R ∧
    RegisterField [f, f] R = RegisterField [f] R ∧
    (RegisterField [f] (RegisterField [f] R)).count f = 1 ∧
    (RegisterField [f] (RegisterField [f] R)).Sorted (fun a b => less a b = true) := by
  have hmem : f ∈ RegisterField [f] R :=
    mem_sortSlice.mpr (mem_registerLoop_single f R)
  have h1 : RegisterField [f] (RegisterField [f] R) = RegisterField [f] R := by
    conv_lhs => rw [RegisterField, registerLoop_single, if_pos hmem]
    exact sortSlice_idem _
  have h2 : RegisterField [f, f] R = RegisterField [f] R := by
    rw [RegisterField, registerLoop_cons, ← registerLoop_single, registerLoop_single f,
      if_pos (mem_registerLoop_single f R)]
    rfl
  refine ⟨h1, h2, ?_, ?_⟩
  · rw [h1]
    exact List.count_eq_one_of_mem (nodup_RegisterField [f] R hR) hmem
  · rw [h1]
    exact strict_sortSlice (nodup_registerLoop [f] R hR)

theorem register_idempotent_witness :
    RegisterField ["asset"] (RegisterField ["asset"] ["component", "caller"]) =
        RegisterField ["asset"] ["component", "caller"] ∧
    RegisterField ["asset", "asset"] ["component", "caller"] =
        RegisterField ["asset"] ["component", "caller"] ∧
    (RegisterField ["asset"] (RegisterField ["asset"] ["component", "caller"])).count
        "asset" = 1 ∧
    (RegisterField ["asset"] (RegisterField ["asset"] ["component", "caller"])).Sorted
        (fun a b => less a b = true) :=
  register_idempotent ["component", "caller"] "asset" (by decide)

/-- C8. Registration adds exactly the missing fields: on a duplicate-free registry
`R`, a field belongs to the registry after `RegisterField(fs...)` exactly when it
belonged to `R` or occurs in `fs`, and the new length is the length of `R` plus
the number of distinct fields of `fs` that were not in `R`. -/
theorem register_adds_missing (R fs : List Field) (hR : R.Nodup) :
    (∀ x, x ∈ RegisterField fs R ↔ x ∈ R ∨ x ∈ fs) ∧
    (RegisterField fs R).length =
      R.length + (fs.dedup.filter (fun f => decide (f ∉ R))).length := by
  constructor
  · intro x
    rw [RegisterField, mem_sortSlice, mem_registerLoop]
  · rw [RegisterField, length_sortSlice, (registerLoop_perm fs R hR).length_eq,
      List.length_append]

theorem register_adds_missing_witness :
    (∀ x, x ∈ RegisterField [fieldComponent, fieldAsset, fieldComponent, "caller"]
        ["caller", "source_file", "source_line", "stack_trace"] ↔
      x ∈ ["caller", "source_file", "source_line", "stack_trace"] ∨
        x ∈ [fieldComponent, fieldAsset, fieldComponent, "caller"]) ∧
    (RegisterField [fieldComponent, fieldAsset, fieldComponent, "caller"]
        ["caller", "source_file", "source_line", "stack_trace"]).length =
      ["caller", "source_file", "source_line", "stack_trace"].length +
        ([fieldComponent, fieldAsset, fieldComponent, "caller"].dedup.filter
          (fun f => decide (f ∉ ["caller", "source_file", "source_line",
            "stack_trace"]))).length :=
  register_adds_missing ["caller", "source_file", "source_line", "stack_trace"]
    [fieldComponent, fieldAsset, fieldComponent, "caller"] (by decide)

/-- C9. Unregistration symmetry: on a sorted duplicate-free registry `R`,
`UnregisterField(f)` with `f` in `R` returns `R` with the one occurrence of `f`
cut out (one element shorter, `f` gone, every other field kept, in the same
order), and with `f` not in `R` it returns `R` unchanged. -/
theorem unregister_symmetry (R : List Field) (f : Field)
    (hs : R.Sorted (fun a b => less b a = false)) (hn : R.Nodup) :
    (f ∈ R → UnregisterField [f] R = some (R.erase f) ∧
      (R.erase f).length + 1 = R.length ∧ f ∉ R.erase f ∧
      (∀ g, g ≠ f → (g ∈ R.erase f ↔ g ∈ R)) ∧ (R.erase f).Sublist R) ∧
    (f ∉ R → UnregisterField [f] R = some R) := by
  have hfilter : R.filter (fun x => decide (x ∉ [f])) = R.erase f := by
    rw [hn.erase_eq_filter]
    apply List.filter_congr
    intro x _
    by_cases hx : x = f <;> simp [hx]
  have hsub : (R.erase f).Sublist R := List.erase_sublist f R
  have hsorted : (R.erase f).Sorted (fun a b => less b a = false) := hs.sublist hsub
  constructor
  · intro hf
    refine ⟨?_, ?_, ?_, ?_, hsub⟩
    · rw [UnregisterField_eq, hfilter, sortSlice_of_sorted hsorted]
    · rw [List.length_erase_of_mem hf]
      have : 0 < R.length := List.length_pos_of_mem hf
      omega
    · exact hn.not_mem_erase
    · intro g hg
      exact List.mem_erase_of_ne hg
  · intro hf
    rw [UnregisterField_eq, hfilter, List.erase_of_not_mem hf, sortSlice_of_sorted hs]

theorem unregister_symmetry_witness :
    (FieldSourceLine ∈ ["asset", "caller", "component", "source_file", "source_line",
        "stack_trace"] →
      UnregisterField [FieldSourceLine]
          ["asset", "caller", "component", "source_file", "source_line", "stack_trace"] =
        some (["asset", "caller", "component", "source_file", "source_line",
          "stack_trace"].erase FieldSourceLine) ∧
      (["asset", "caller", "component", "source_file", "source_line",
          "stack_trace"].erase FieldSourceLine).length + 1 =
        ["asset", "caller", "component", "source_file", "source_line",
          "stack_trace"].length ∧
      FieldSourceLine ∉ ["asset", "caller", "component", "source_file", "source_line",
          "stack_trace"].erase FieldSourceLine ∧
      (∀ g, g ≠ FieldSourceLine →
        (g ∈ ["asset", "caller", "component", "source_file", "source_line",
            "stack_trace"].erase FieldSourceLine ↔
          g ∈ ["asset", "caller", "component", "source_file", "source_line",
            "stack_trace"])) ∧
      (["asset", "caller", "component", "source_file", "source_line",
          "stack_trace"].erase FieldSourceLine).Sublist
        ["asset", "caller", "component", "source_file", "source_line", "stack_trace"]) ∧
    (FieldSourceLine ∉ ["asset", "caller", "component", "source_file", "source_line",
        "stack_trace"] →
      UnregisterField [FieldSourceLine]
          ["asset", "caller", "component", "source_file", "source_line", "stack_trace"] =
        some ["asset", "caller", "component", "source_file", "source_line",
          "stack_trace"]) :=
  unregister_symmetry
    ["asset", "caller", "component", "source_file", "source_line", "stack_trace"]
    FieldSourceLine (by decide) (by decide)

/-- C10. Registry invariant: every registry reachable from the empty one by
`RegisterField` and `UnregisterField` calls, whatever their argument lists, has
no duplicate field and is sorted in strictly ascending order of the field
tokens. -/
theorem registry_invariant (R : List Field) (h : Reachable R) :
    R.Nodup ∧ R.Sorted (fun a b => less a b = true) := by
  induction h with
  | empty => exact ⟨List.nodup_nil, List.sorted_nil⟩
  | register fields _ ih =>
    exact ⟨nodup_RegisterField fields _ ih.1,
      strict_sortSlice (nodup_registerLoop fields _ ih.1)⟩
  | unregister fields _ hu ih =>
    have hnd := nodup_UnregisterField fields _ _ ih.1 hu
    rw [UnregisterField_eq] at hu
    cases hu
    exact ⟨hnd, strict_sortSlice (ih.1.filter _)⟩

theorem registry_invariant_witness :
    exampleFields.Nodup ∧ exampleFields.Sorted (fun a b => less a b = true) :=
  registry_invariant exampleFields
    (Reachable.unregister [FieldSourceLine, FieldSourceLine, "absent"]
      (Reachable.register [fieldComponent, fieldAsset, fieldComponent]
        (Reachable.register [FieldSourceFile, FieldSourceLine, FieldCaller, FieldStackTrace]
          Reachable.empty))
      (by decide))

/-! ## Further lemmas on the carrier and the trace -/

/-- C11. `Skip` has overwrite semantics: after `Skip(F, V)` the rule set holds `V`
for `F` and reads every other field as before, also when it was the nil map;
`Skip(F, V1)` followed by `Skip(F, V2)` is `Skip(F, V2)` alone, and after it a
carrier value `V1` different from `V2` is not suppressed for `F`: the rule of `F`
does not hold `V1`, and a dispatch at or above the threshold whose extended
carrier maps `F` to a `V1` that is nil or compares unequal to `V2`, with the
comparison of every other field evaluating to false, reaches its output
method. -/
theorem skip_overwrites (S : ExcludeRules) (F : Field) (V V1 V2 : Iface) :
    (Skip F V S).get F = some V ∧
    (∀ k, k ≠ F → (Skip F V S).get k = S.get k) ∧
    ((Skip F V none).get F = some V ∧ ∀ k, k ≠ F → (Skip F V none).get k = none) ∧
    Skip F V2 (Skip F V1 S) = Skip F V2 S ∧
    (V1 ≠ V2 → (Skip F V2 (Skip F V1 S)).get F ≠ some V1) ∧
    ((V1 = none ∨ ifaceEq V1 V2 = some false) →
      ∀ (threshold : Level) (caller : Option Frame)
      (registeredFields : List Field) (ctx : Context) (level : Level) (format : String)
      (args : List Iface), threshold ≤ level →
      (withCaller ctx caller).Value F = V1 →
      (∀ k ∈ registeredFields, k ≠ F → (withCaller ctx caller).Value k ≠ none →
        ∀ e ∈ (Skip F V2 (Skip F V1 S)).get k,
          ifaceEq ((withCaller ctx caller).Value k) e = some false) →
      logf level format args ∈
        call ⟨threshold, caller, registeredFields, Skip F V2 (Skip F V1 S)⟩ ctx level
          format args) := by
  have hover : Skip F V2 (Skip F V1 S) = Skip F V2 S := by
    cases S with
    | none =>
      simp only [Skip, Option.some.injEq]
      funext k
      by_cases hk : k = F <;> simp [RuleMap.set, hk]
    | some m =>
      simp only [Skip, Option.some.injEq]
      funext k
      by_cases hk : k = F <;> simp [RuleMap.set, hk]
  refine ⟨Skip_get_self F V S, fun k hk => Skip_get_other F V S k hk,
    ⟨Skip_get_self F V none, fun k hk => by rw [Skip_get_other F V none k hk]; rfl⟩,
    hover, ?_, ?_⟩
  · intro hne he
    rw [Skip_get_self] at he
    exact hne (Option.some.inj he).symm
  · intro hne threshold caller registeredFields ctx level format args hlevel hF hother
    have hno : ∀ k ∈ registeredFields, (withCaller ctx caller).Value k ≠ none →
        ∀ e ∈ (Skip F V2 (Skip F V1 S)).get k,
          ifaceEq ((withCaller ctx caller).Value k) e = some false := by
      intro k hk hv e he
      by_cases hkF : k = F
      · subst hkF
        have he2 : (Skip k V2 (Skip k V1 S)).get k = some e := he
        rw [Skip_get_self] at he2
        cases he2
        rw [hF] at hv ⊢
        rcases hne with h1 | h1
        · exact absurd h1 hv
        · exact h1
      · exact hother k hk hkF hv e he
    rw [call_pass ⟨threshold, caller, registeredFields, Skip F V2 (Skip F V1 S)⟩ ctx
      level format args hlevel hno]
    simp

theorem skip_overwrites_witness :
    (Skip fieldAsset (some (Value.str "B"))
        (Skip fieldAsset (some (Value.str "A")) none)).get fieldAsset
      ≠ some (some (Value.str "A")) :=
  (skip_overwrites none fieldAsset none (some (Value.str "A"))
    (some (Value.str "B"))).2.2.2.2.1 (by decide)

/-- C14. Built-in fields and golden order: from the empty registry, `init` leaves
exactly caller, source_file, source_line, stack_trace; after the tests'
`RegisterField(component, asset)` and `UnregisterField(source_line)` the registry
is exactly asset, caller, component, source_file, stack_trace, the registry of
the examples, and a repeated `UnregisterField(source_line)` keeps it. -/
theorem builtin_fields_golden_order :
    init [] = ["caller", "source_file", "source_line", "stack_trace"] ∧
    UnregisterField [FieldSourceLine]
        (RegisterField [fieldComponent, fieldAsset] (init [])) =
      some ["asset", "caller", "component", "source_file", "stack_trace"] ∧
    UnregisterField [FieldSourceLine]
        (RegisterField [fieldComponent, fieldAsset] (init [])) = some exampleFields ∧
    UnregisterField [FieldSourceLine] exampleFields = some exampleFields := by
  refine ⟨by decide, by decide, by decide, by decide⟩

/-! ## Claims on termination and on the removal loop -/

theorem scanFields_length (fs R R2 : List Field) (h : scanFields fs R = some R2) :
    R2.length + 1 = R.length := by
  obtain ⟨f, _, hfR, he⟩ := scanFields_some fs R R2 h
  subst he
  rw [List.length_erase_of_mem hfR]
  have : 0 < R.length := List.length_pos_of_mem hfR
  omega

/-- C15. The mutation operations are total: on every registry, duplicate-free or
not, and every list of fields, `UnregisterField` returns a registry; each restart
of the scan follows a removal that shortens the registry by one, so the labelled
loop ends within `len(registry)` restarts, that is with any fuel above the length,
and more fuel does not change its result.  `RegisterField` returns a registry on
every input, and `Skip` assigns into an allocated map on every input, the nil map
included. -/
theorem mutation_total (fields R : List Field) (F : Field) (V : Iface)
    (S : ExcludeRules) :
    (∃ R2, UnregisterField fields R = some R2) ∧
    (∀ R1 R2, scanFields fields R1 = some R2 → R2.length + 1 = R1.length) ∧
    (∀ fuel, R.length < fuel →
      unregisterLoop fuel fields R ≠ none ∧
      unregisterLoop fuel fields R = unregisterLoop (R.length + 1) fields R) ∧
    (∃ R2, RegisterField fields R = R2) ∧
    (∃ m, Skip F V S = some m) := by
  refine ⟨⟨_, UnregisterField_eq fields R⟩, fun R1 R2 h => scanFields_length fields R1 R2 h,
    ?_, ⟨_, rfl⟩, ?_⟩
  · intro fuel hfuel
    rw [unregisterLoop_eq fuel fields R hfuel,
      unregisterLoop_eq (R.length + 1) fields R (Nat.lt_succ_self _)]
    exact ⟨by simp, rfl⟩
  · cases S with
    | none => exact ⟨_, rfl⟩
    | some m => exact ⟨_, rfl⟩

theorem mutation_total_witness :
    unregisterLoop 4 ["b", "a", "zz"] ["a", "b", "a"] ≠ none ∧
      unregisterLoop 4 ["b", "a", "zz"] ["a", "b", "a"] =
        unregisterLoop (["a", "b", "a"].length + 1) ["b", "a", "zz"] ["a", "b", "a"] :=
  (mutation_total ["b", "a", "zz"] ["a", "b", "a"] "a" none none).2.2.1 4 (by decide)

/-- C16. The restart-the-scan removal is a plain filter: on every registry, sorted
or not, duplicate-free or not, and every list of fields, `UnregisterField` returns
the sorted sequence of the elements that do not occur among the named fields;
every occurrence of a named field is removed, and every other element keeps its
number of occurrences. -/
theorem unregister_is_filter (fields R : List Field) :
    UnregisterField fields R = some (removeAllMatching fields R) ∧
    (∀ x, x ∈ removeAllMatching fields R ↔ x ∈ R ∧ x ∉ fields) ∧
    (∀ x, (removeAllMatching fields R).count x = if x ∈ fields then 0 else R.count x) ∧
    (removeAllMatching fields R).Sorted (fun a b => less b a = false) := by
  refine ⟨UnregisterField_eq fields R, ?_, ?_, sorted_sortSlice _⟩
  · intro x
    rw [removeAllMatching, mem_sortSlice, List.mem_filter]
    simp
  · intro x
    rw [removeAllMatching, (perm_sortSlice _).count_eq]
    by_cases hx : x ∈ fields
    · rw [if_pos hx, List.count_eq_zero, List.mem_filter]
      simp [hx]
    · rw [if_neg hx]
      exact List.count_filter (by simpa using hx)

/-! ## Claims on the suppression condition and on caller information -/

theorem mem_get_iff (rules : ExcludeRules) (k : Field) (e : Iface) :
    e ∈ rules.get k ↔ ∃ m, rules = some m ∧ m k = some e := by
  cases rules with
  | none => simp [ExcludeRules.get]
  | some m => simp [ExcludeRules.get]

/-- At a level at or above the threshold, the output method is in the trace
exactly when every comparison made along the registry evaluates to false. -/
theorem logf_mem_call_iff (env : Env) (ctx : Context) (level : Level)
    (format : String) (args : List Iface) (hlevel : env.threshold ≤ level) :
    logf level format args ∈ call env ctx level format args ↔
      ∀ k ∈ env.registeredFields, (withCaller ctx env.caller).Value k ≠ none →
        ∀ e ∈ env.excludeRules.get k,
          ifaceEq ((withCaller ctx env.caller).Value k) e = some false := by
  constructor
  · intro hmem k hk hv e he
    by_contra hne
    have := call_no_output_of_stop env ctx level format args ⟨k, hk, hv, e, he, hne⟩ _ hmem
    rw [logf_isOutput] at this
    exact Bool.noConfusion this
  · intro hno
    rw [call_pass env ctx level format args hlevel hno]
    simp

/-- The condition of `logf_mem_call_iff` read on the map itself. -/
theorem pass_iff_raw (rules : ExcludeRules) (c : Context) (l : List Field) :
    (∀ k ∈ l, c.Value k ≠ none → ∀ e ∈ rules.get k, ifaceEq (c.Value k) e = some false) ↔
      ∀ k ∈ l, ∀ v, c.Value k = some v → ∀ m, rules = some m → ∀ e, m k = some e →
        ifaceEq (some v) e = some false := by
  constructor
  · intro h k hk v hv m hm e he
    have := h k hk (by rw [hv]; exact Option.noConfusion) e
      ((mem_get_iff rules k e).mpr ⟨m, hm, he⟩)
    rwa [hv] at this
  · intro h k hk hv e he
    obtain ⟨m, hm, hme⟩ := (mem_get_iff rules k e).mp he
    cases hc : c.Value k with
    | none => exact absurd hc hv
    | some v => exact h k hk v hc m hm e hme

/-- C17, as stated, fails: with `asset` registered, the carrier mapping `asset` to
a slice and the rule set storing another slice of the same type for `asset`, no
registered field has a value equal to its stored value, yet the dispatch at Info
does not reach its output method: the comparison of line 123 panics. -/
theorem exact_suppression_counterexample :
    LevelInfo ≤ LevelInfo ∧
    (∀ k ∈ exampleFields,
      (withCaller
        (Context.withValue (exampleCtx "A") fieldAsset
          (some (Value.uncomparable "[]string" 2)))
        (some exampleFrame)).Value k ≠ none →
      ∀ e ∈ (Skip fieldAsset (some (Value.uncomparable "[]string" 1)) none).get k,
        e ≠ (withCaller
          (Context.withValue (exampleCtx "A") fieldAsset
            (some (Value.uncomparable "[]string" 2)))
          (some exampleFrame)).Value k ∧
        ifaceEq ((withCaller
          (Context.withValue (exampleCtx "A") fieldAsset
            (some (Value.uncomparable "[]string" 2)))
          (some exampleFrame)).Value k) e ≠ some true) ∧
    (∀ i ∈ call ⟨LevelInfo, some exampleFrame, exampleFields,
        Skip fieldAsset (some (Value.uncomparable "[]string" 1)) none⟩
        (Context.withValue (exampleCtx "A") fieldAsset
          (some (Value.uncomparable "[]string" 2)))
        LevelInfo "this is info" [], i.isOutput = false) ∧
    callPanics ⟨LevelInfo, some exampleFrame, exampleFields,
        Skip fieldAsset (some (Value.uncomparable "[]string" 1)) none⟩
        (Context.withValue (exampleCtx "A") fieldAsset
          (some (Value.uncomparable "[]string" 2)))
        LevelInfo = true := by
  refine ⟨by decide, by decide, by decide, by decide⟩

/-- C17, amended. Exact suppression condition: a dispatch at a level at or above
the threshold reaches its output method exactly when, for every registered field
that has a non-nil value `v` in the extended carrier and a value `e` stored in
the skip rule map, the comparison `v == e` evaluates to false: no stored value
equals the carrier value, and no comparison panics.  Hence a rule for a field
that is not registered, for a field absent from the extended carrier, or with a
nil suppressed value does not keep the entry from its output, and with an empty
rule set, nil or allocated, every entry reaches its output. -/
theorem exact_suppression (threshold : Level) (caller : Option Frame)
    (registeredFields : List Field) (rules : ExcludeRules) (ctx : Context)
    (level : Level) (format : String) (args : List Iface)
    (hlevel : threshold ≤ level) :
    ((∃ i ∈ call ⟨threshold, caller, registeredFields, rules⟩ ctx level format args,
        i.isOutput = true) ↔
      ∀ k ∈ registeredFields, ∀ v, (withCaller ctx caller).Value k = some v →
        ∀ m, rules = some m → ∀ e, m k = some e → ifaceEq (some v) e = some false) ∧
    (logf level format args ∈
        call ⟨threshold, caller, registeredFields, rules⟩ ctx level format args ↔
      ∀ k ∈ registeredFields, ∀ v, (withCaller ctx caller).Value k = some v →
        ∀ m, rules = some m → ∀ e, m k = some e → ifaceEq (some v) e = some false) ∧
    (∀ F V, (F ∉ registeredFields ∨ (withCaller ctx caller).Value F = none ∨ V = none) →
      (∀ k ∈ registeredFields, k ≠ F → (withCaller ctx caller).Value k ≠ none →
        ∀ e ∈ (Skip F V rules).get k,
          ifaceEq ((withCaller ctx caller).Value k) e = some false) →
      logf level format args ∈
        call ⟨threshold, caller, registeredFields, Skip F V rules⟩ ctx level format
          args) ∧
    ((∀ m, rules = some m → ∀ k, m k = none) →
      logf level format args ∈
        call ⟨threshold, caller, registeredFields, rules⟩ ctx level format args) := by
  have hiff := (logf_mem_call_iff ⟨threshold, caller, registeredFields, rules⟩ ctx level
    format args hlevel).trans (pass_iff_raw rules (withCaller ctx caller) registeredFields)
  refine ⟨?_, hiff, ?_, ?_⟩
  · rw [← hiff]
    constructor
    · rintro ⟨i, hi, hout⟩
      by_contra hnot
      rw [logf_mem_call_iff ⟨threshold, caller, registeredFields, rules⟩ ctx level
        format args hlevel] at hnot
      push_neg at hnot
      obtain ⟨k, hk, hv, e, he, hne⟩ := hnot
      have := call_no_output_of_stop ⟨threshold, caller, registeredFields, rules⟩ ctx
        level format args ⟨k, hk, hv, e, he, hne⟩ i hi
      rw [hout] at this
      exact Bool.noConfusion this
    · intro hmem
      exact ⟨_, hmem, logf_isOutput level format args⟩
  · intro F V hcase hother
    rw [logf_mem_call_iff ⟨threshold, caller, registeredFields, Skip F V rules⟩ ctx level
      format args hlevel]
    intro k hk hv e he
    by_cases hkF : k = F
    · subst hkF
      rcases hcase with h1 | h1 | h1
      · exact absurd hk h1
      · exact absurd h1 hv
      · subst h1
        have he2 : (Skip k none rules).get k = some e := he
        rw [Skip_get_self] at he2
        cases he2
        cases hc : (withCaller ctx caller).Value k with
        | none => exact absurd hc hv
        | some v => rfl
    · exact hother k hk hkF hv e he
  · intro hempty
    rw [hiff]
    intro k _ v _ m hm e he
    rw [hempty m hm k] at he
    exact Option.noConfusion he

theorem exact_suppression_witness :
    logf LevelInfo "this is info" [] ∉
      call ⟨LevelInfo, some exampleFrame, exampleFields,
          some (RuleMap.set (fun _ => none) fieldAsset (some (Value.str "A")))⟩
        (exampleCtx "A") LevelInfo "this is info" [] :=
  fun hmem =>
    absurd
      ((exact_suppression LevelInfo (some exampleFrame) exampleFields
          (some (RuleMap.set (fun _ => none) fieldAsset (some (Value.str "A"))))
          (exampleCtx "A") LevelInfo "this is info" [] (by decide)).2.1.mp hmem
        fieldAsset (by decide) (Value.str "A") (by decide) _ rfl (some (Value.str "A"))
        (by decide))
      (by decide)

theorem mem_RegisterField (fs R : List Field) (x : Field) :
    x ∈ RegisterField fs R ↔ x ∈ R ∨ x ∈ fs := by
  rw [RegisterField, mem_sortSlice, mem_registerLoop]

theorem strict_RegisterField (fs R : List Field) (h : R.Nodup) :
    (RegisterField fs R).Sorted (fun a b => less a b = true) :=
  strict_sortSlice (nodup_registerLoop fs R h)

theorem nodup_of_reachable (R : List Field) (h : Reachable R) : R.Nodup := by
  induction h with
  | empty => exact List.nodup_nil
  | register fields _ ih => exact nodup_RegisterField fields _ ih
  | unregister fields _ hu ih => exact nodup_UnregisterField fields _ _ ih hu

/-- Two strictly ascending registries with the same fields are equal. -/
theorem eq_of_strict_of_mem_iff {l₁ l₂ : List Field}
    (h₁ : l₁.Sorted (fun a b => less a b = true))
    (h₂ : l₂.Sorted (fun a b => less a b = true)) (h : ∀ x, x ∈ l₁ ↔ x ∈ l₂) :
    l₁ = l₂ := by
  rw [strict_less_iff] at h₁ h₂
  exact List.eq_of_perm_of_sorted
    ((List.perm_ext_iff_of_nodup h₁.nodup h₂.nodup).mpr h) h₁ h₂

/-- C19. The registry is canonical for its set of fields: on a reachable registry,
registering `fs1` then `fs2`, registering `fs2` then `fs1`, and registering
`fs1 ++ fs2` in one call give the same registry, and registering a permutation of
a list gives the same registry as the list. -/
theorem register_canonical (R fs1 fs2 : List Field) (h : Reachable R) :
    RegisterField fs2 (RegisterField fs1 R) = RegisterField fs1 (RegisterField fs2 R) ∧
    RegisterField fs2 (RegisterField fs1 R) = RegisterField (fs1 ++ fs2) R ∧
    (∀ fs3, fs3.Perm fs1 → RegisterField fs3 R = RegisterField fs1 R) := by
  have hR := nodup_of_reachable R h
  have h1 := nodup_RegisterField fs1 R hR
  have h2 := nodup_RegisterField fs2 R hR
  refine ⟨?_, ?_, ?_⟩
  · apply eq_of_strict_of_mem_iff (strict_RegisterField _ _ h1) (strict_RegisterField _ _ h2)
    intro x
    simp only [mem_RegisterField]
    tauto
  · apply eq_of_strict_of_mem_iff (strict_RegisterField _ _ h1) (strict_RegisterField _ _ hR)
    intro x
    simp only [mem_RegisterField, List.mem_append]
    tauto
  · intro fs3 hp
    apply eq_of_strict_of_mem_iff (strict_RegisterField _ _ hR) (strict_RegisterField _ _ hR)
    intro x
    simp only [mem_RegisterField, hp.mem_iff]

theorem register_canonical_witness :
    RegisterField [fieldAsset, "caller"] (RegisterField [fieldComponent, fieldAsset] (init []))
      = RegisterField [fieldComponent, fieldAsset]
          (RegisterField [fieldAsset, "caller"] (init [])) ∧
    RegisterField [fieldAsset, "caller"] (RegisterField [fieldComponent, fieldAsset] (init []))
      = RegisterField ([fieldComponent, fieldAsset] ++ [fieldAsset, "caller"]) (init []) ∧
    (∀ fs3, fs3.Perm [fieldComponent, fieldAsset] →
      RegisterField fs3 (init []) = RegisterField [fieldComponent, fieldAsset] (init [])) :=
  register_canonical (init []) [fieldComponent, fieldAsset] [fieldAsset, "caller"]
    (Reachable.register _ Reachable.empty)

end Log
